import Mathlib

set_option maxHeartbeats 1000000

/-!
Shallow embedding of src/bestfirstsearch.hpp (namespace jsearch): the three
best-first search algorithms (Graph Search, Tree Search, recursive best-first
search) and their shared machinery.  The Traits template is instantiated with
State = Action = Nat and PathCost = Nat, where the path-cost type is a 64-bit
unsigned integer whose largest representable value is RBFS_INF below.
Pluggable policies (Comparator, CostFunction) become function parameters.
The frontier structure (utils/queue_set.hpp) and the node construction
policies (problem.hpp) are not part of src/, so those operations are modelled
from the spec, as marked in their doc comments.
-/

/-- Search-tree node record: state, optional parent, generating action and
path cost.  Modelled from the spec: the node record itself lives in
problem.hpp, which is not under src/; spec section 3 gives
`{state, parent : optional reference, action, path_cost}`, the root having
no parent.  The `root` constructor models a node whose parent pointer is the
null `Node()`. -/
inductive Node where
| root (state : Nat) (action : Nat) (path_cost : Nat)
| child (state : Nat) (parent : Node) (action : Nat) (path_cost : Nat)
deriving DecidableEq

/-- The node's state (accessor `state()`). -/
def Node.state : Node → Nat
| .root s _ _ => s
| .child s _ _ _ => s

/-- The node's path cost (accessor `path_cost()`). -/
def Node.path_cost : Node → Nat
| .root _ _ c => c
| .child _ _ _ c => c

/-- The node's parent (accessor `parent()`, none for the null pointer). -/
def Node.parent : Node → Option Node
| .root _ _ _ => none
| .child _ p _ _ => some p

/-- Modelled from the spec: the Problem policy boundary of section 6
(problem.hpp is not under src/): initial state, goal test, finite action
enumeration, pure transition function and step cost. -/
structure Problem where
  initial : Nat
  goal_test : Nat → Bool
  actions : Nat → List Nat
  result : Nat → Nat → Nat
  step_cost : Nat → Nat → Nat → Nat

/-- Modelled from the spec: `create(state, parent, action, cost)`; all three
algorithms start from `PROBLEM.create(PROBLEM.initial, Node(), Action(), 0)`,
a parentless node holding the initial state with path cost 0. -/
def Problem.rootNode (p : Problem) : Node := .root p.initial 0 0

/-- Modelled from the spec: `child(parent_node, action, successor_state)`
builds a node whose path cost is the parent's path cost plus
`step_cost(parent.state, action, successor)` (spec section 3 invariant). -/
def Problem.childNode (p : Problem) (n : Node) (ACTION : Nat) (SUCCESSOR : Nat) : Node :=
  .child SUCCESSOR n ACTION (n.path_cost + p.step_cost n.state ACTION SUCCESSOR)

/-- Modelled from the spec: the frontier's `find(state)` lookup of the
queue_set (utils/queue_set.hpp is not under src/).  The frontier is modelled
as a list of nodes; find returns the first entry holding the state. -/
def findState : List Node → Nat → Option Node
| [], _ => none
| n :: ns, s => if n.state = s then some n else findState ns s

/-- Modelled from the spec: the frontier's `increase(location, new_node)`
operation: replace the located entry (the first entry holding the state) by
the new node, leaving every other entry untouched. -/
def increase : List Node → Nat → Node → List Node
| [], _, _ => []
| n :: ns, s, c => if n.state = s then c :: ns else n :: increase ns s c

/-- detail::handle_child (source lines 78-122): the duplicate-resolution
routine.  If the child's state is already on the frontier and the child's
path cost is strictly smaller, replace the duplicate via `increase` and
report the replaced entry; if it is not smaller, leave the frontier alone
and report nothing (the C++ nullptr, here `none`); if the state is absent,
push the child and report the child itself. -/
def handle_child (frontier : List Node) (CHILD : Node) : List Node × Option Node :=
  match findState frontier CHILD.state with
  | some DUPLICATE =>
    if CHILD.path_cost < DUPLICATE.path_cost then
      (increase frontier CHILD.state CHILD, some DUPLICATE)
    else
      (frontier, none)
  | none => (frontier ++ [CHILD], some CHILD)

/-- detail::pop (source lines 61-67) specialised to the list model: remove
and return the best frontier entry.  The pluggable Comparator is modelled by
a key function; the first entry of minimal key wins ties. -/
def popMin (key : Node → Nat) : Node → List Node → Node × List Node
| x, [] => (x, [])
| x, y :: ys =>
  match popMin key y ys with
  | (m, r) => if key m < key x then (m, x :: r) else (x, y :: ys)

/-- The mutable run state of Graph Search: the frontier and the closed set
(a set of states, modelled as a duplicate-free list). -/
structure GState where
  frontier : List Node
  closed : List Nat
deriving DecidableEq

/-- One action's worth of the expansion loop body of Graph Search (source
lines 198-203): compute the successor; if it is already closed do nothing,
otherwise build the child node and run it through handle_child. -/
def expandStep (p : Problem) (S : Node) (closed : List Nat) (fr : List Node) (ACTION : Nat) : List Node :=
  let SUCCESSOR := p.result S.state ACTION
  if SUCCESSOR ∈ closed then fr else (handle_child fr (p.childNode S ACTION SUCCESSOR)).1

/-- The whole expansion loop of Graph Search over the actions of the popped
node (source lines 196-203). -/
def expand (p : Problem) (S : Node) (closed : List Nat) (fr : List Node) : List Node :=
  (p.actions S.state).foldl (expandStep p S closed) fr

/-- The path-reconstruction lambda `unravel` of Graph Search (source lines
182-190): emit the node's state, then recurse into the parent when there is
one.  Emission order is goal-to-root. -/
def unravel : Node → List Nat
| .root s _ _ => [s]
| .child s p _ _ => s :: unravel p

/-- Modelled from the spec: the parent chain walked by path reconstruction,
from a node back to its root ancestor, as a list of nodes. -/
def parentChain : Node → List Node
| .root s a c => [Node.root s a c]
| .child s p a c => Node.child s p a c :: parentChain p

/-- The root ancestor of a node: follow parent references to the parentless
node of the chain. -/
def rootAncestor : Node → Node
| .root s a c => Node.root s a c
| .child _ p _ _ => rootAncestor p

/-- The state held by a node's root ancestor. -/
def originOf (n : Node) : Nat := (rootAncestor n).state

/-- Graph Search, best_first_search with a closed set (source lines 139-208),
as a fuel-indexed recursion (the C++ while loop is unbounded; `none` means
the fuel ran out before the loop finished).  Besides the source's result
(the reconstructed path and its cost on success, the goal_not_found error on
frontier exhaustion) the embedding also returns the list of popped nodes in
pop order and the final run state, as ghost instrumentation for the
verification; neither changes the computed result. -/
def best_first_search_graph_aux (p : Problem) (key : Node → Nat) :
    Nat → GState → Option (List Node × GState × Except Unit (List Nat × Nat))
| 0, _ => none
| fuel + 1, st =>
  match st.frontier with
  | [] => some ([], st, .error ())
  | x :: xs =>
    match popMin key x xs with
    | (S, rest) =>
      if p.goal_test S.state then
        some ([S], ⟨rest, st.closed⟩, .ok (unravel S, S.path_cost))
      else
        let closed' := List.insert S.state st.closed
        match best_first_search_graph_aux p key fuel ⟨expand p S closed' rest, closed'⟩ with
        | none => none
        | some (tr, fin, res) => some (S :: tr, fin, res)

/-- Graph Search started the way the source starts it: the frontier holds
only the root node and the closed set is empty (source lines 162-165). -/
def best_first_search_graph (p : Problem) (key : Node → Nat) (fuel : Nat) :
    Option (List Node × GState × Except Unit (List Nat × Nat)) :=
  best_first_search_graph_aux p key fuel ⟨[p.rootNode], []⟩

/-- Tree Search, best_first_search without a closed set (source lines
214-262), fuel-indexed like the graph variant.  On success it returns the
goal node itself.  The popped-node list and final frontier are ghost
instrumentation for the verification. -/
def best_first_search_tree_aux (p : Problem) (key : Node → Nat) :
    Nat → List Node → Option (List Node × List Node × Except Unit Node)
| 0, _ => none
| fuel + 1, frontier =>
  match frontier with
  | [] => some ([], [], .error ())
  | x :: xs =>
    match popMin key x xs with
    | (S, rest) =>
      if p.goal_test S.state then
        some ([S], rest, .ok S)
      else
        let fr' := rest ++ (p.actions S.state).map (fun a => p.childNode S a (p.result S.state a))
        match best_first_search_tree_aux p key fuel fr' with
        | none => none
        | some (tr, fin, res) => some (S :: tr, fin, res)

/-- Tree Search started from the singleton frontier holding the root node
(source lines 236-237). -/
def best_first_search_tree (p : Problem) (key : Node → Nat) (fuel : Nat) :
    Option (List Node × List Node × Except Unit Node) :=
  best_first_search_tree_aux p key fuel [p.rootNode]

/-- The RBFS_INF macro (source line 362): std::numeric_limits of the path
cost type, here the largest 64-bit unsigned value.  A finite, ordinary
representable number of the cost type. -/
def RBFS_INF : Nat := 2 ^ 64 - 1

/-- Ordered insertion into the per-frame children structure of RBFS, keyed
by ascending stored cost; an entry of equal cost goes after the existing
ones, modelling the pluggable TiePolicy deterministically. -/
def insertChild (c : Node × Nat) : List (Node × Nat) → List (Node × Nat)
| [] => [c]
| d :: ds => if c.2 < d.2 then c :: d :: ds else d :: insertChild c ds

/-- One child entry of the RBFS child loop (source lines 382-391): build the
child for the action, compute f of the child, and store the propagated cost
`max(F_N, f_CHILD)` when `f_N < F_N`, else `f_CHILD`. -/
def childEntry (p : Problem) (f : Node → Nat) (node : Node) (f_N F_N : Nat) (ACTION : Nat) : Node × Nat :=
  let CHILD := p.childNode node ACTION (p.result node.state ACTION)
  let f_CHILD := f CHILD
  (CHILD, if f_N < F_N then max F_N f_CHILD else f_CHILD)

/-- The children priority structure of one RBFS frame (source lines
379-394): every action's child entry, kept sorted by ascending stored
cost. -/
def mkChildren (p : Problem) (f : Node → Nat) (node : Node) (f_N F_N : Nat) : List (Node × Nat) :=
  (p.actions node.state).foldl (fun acc ACTION => insertChild (childEntry p f node f_N F_N ACTION) acc) []

/-- The second-best stored cost of the ordered children structure, the
sentinel RBFS_INF when there is only one child (source lines 396-405). -/
def second_best_cost : List (Node × Nat) → Nat
| [] => RBFS_INF
| d :: _ => d.2

mutual
/-- recursive::recursive_best_first_search (source lines 340-419), fuel
indexed (`none` means the fuel ran out).  The value paired with the
SearchResult is ghost instrumentation: the list of `(F, bound)` argument
pairs of every recursive invocation made, directly or transitively, by this
invocation; it does not affect the computed SearchResult. -/
def recursive_best_first_search (p : Problem) (f : Node → Nat) :
    Nat → Node → Nat → Nat → Option ((Option Node × Nat) × List (Nat × Nat))
| 0, _, _, _ => none
| fuel + 1, NODE, F_N, B =>
  let f_N := f NODE
  if f_N > B then some ((none, f_N), [])
  else if p.goal_test NODE.state then some ((some NODE, 0), [])
  else if p.actions NODE.state = [] then some ((none, RBFS_INF), [])
  else rbfs_child_loop p f fuel (mkChildren p f NODE f_N F_N) B

/-- The while loop over the ordered children of one RBFS frame (source lines
399-418): while the best stored cost is at most B and below RBFS_INF,
recurse into the best child with bound `min(B, second-best cost)`; a goal
result propagates up unchanged, otherwise the best child's stored cost is
overwritten by the returned cost and the structure is re-ordered; on loop
exit the frame returns no goal together with the best stored cost. -/
def rbfs_child_loop (p : Problem) (f : Node → Nat) :
    Nat → List (Node × Nat) → Nat → Option ((Option Node × Nat) × List (Nat × Nat))
| 0, _, _ => none
| _ + 1, [], _ => none
| fuel + 1, BEST :: rest, B =>
  if BEST.2 ≤ B ∧ BEST.2 < RBFS_INF then
    let bound := min B (second_best_cost rest)
    match recursive_best_first_search p f fuel BEST.1 BEST.2 bound with
    | none => none
    | some ((some g, c), tr) => some ((some g, c), (BEST.2, bound) :: tr)
    | some ((none, R), tr) =>
      match rbfs_child_loop p f fuel (insertChild (BEST.1, R) rest) B with
      | none => none
      | some (res, tr2) => some (res, ((BEST.2, bound) :: tr) ++ tr2)
  else
    some ((none, BEST.2), [])
end

/-- The client-facing recursive_best_first_search wrapper (source lines
434-466): seed the recursion with the root node, `F = f(root)` and
`B = RBFS_INF`; throw goal_not_found (the error) when the recursion returns
no goal node, else return the goal node. -/
def recursive_best_first_search_top (p : Problem) (f : Node → Nat) (fuel : Nat) :
    Option (Except Unit Node) :=
  match recursive_best_first_search p f fuel p.rootNode (f p.rootNode) RBFS_INF with
  | none => none
  | some ((none, _), _) => some (.error ())
  | some ((some g, _), _) => some (.ok g)

/-- The children structure is ordered by ascending stored cost. -/
def costSorted (l : List (Node × Nat)) : Prop :=
  List.Pairwise (fun a b => a.2 ≤ b.2) l

lemma mem_insertChild {x c : Node × Nat} {l : List (Node × Nat)} :
    x ∈ insertChild c l ↔ x = c ∨ x ∈ l := by
  induction l with
  | nil => simp [insertChild]
  | cons d ds ih =>
    rw [insertChild]
    split
    · simp [List.mem_cons]
    · simp only [List.mem_cons, ih]
      tauto

lemma insertChild_sorted {c : Node × Nat} {l : List (Node × Nat)} (h : costSorted l) :
    costSorted (insertChild c l) := by
  induction l with
  | nil => simp [insertChild, costSorted]
  | cons d ds ih =>
    rw [costSorted, List.pairwise_cons] at h
    rw [insertChild]
    split
    · rename_i hlt
      rw [costSorted, List.pairwise_cons]
      refine ⟨?_, List.pairwise_cons.mpr h⟩
      intro x hx
      rcases List.mem_cons.mp hx with rfl | hx
      · exact le_of_lt hlt
      · exact le_trans (le_of_lt hlt) (h.1 x hx)
    · rename_i hge
      rw [costSorted, List.pairwise_cons]
      refine ⟨?_, ih h.2⟩
      intro x hx
      rcases mem_insertChild.mp hx with rfl | hx
      · exact Nat.le_of_not_lt hge
      · exact h.1 x hx

lemma costSorted_rest {a : Node × Nat} {l : List (Node × Nat)} (h : costSorted (a :: l)) :
    costSorted l :=
  (List.pairwise_cons.mp h).2

lemma head_le_second {a : Node × Nat} {rest : List (Node × Nat)}
    (h : costSorted (a :: rest)) (hfin : a.2 < RBFS_INF) :
    a.2 ≤ second_best_cost rest := by
  cases rest with
  | nil => exact le_of_lt hfin
  | cons d ds => exact (List.pairwise_cons.mp h).1 d (List.mem_cons_self d ds)

lemma mem_foldl_insertChild (g : Nat → Node × Nat) :
    ∀ (acts : List Nat) (acc : List (Node × Nat)) (x : Node × Nat),
      x ∈ acts.foldl (fun acc a => insertChild (g a) acc) acc ↔
        x ∈ acc ∨ ∃ a ∈ acts, x = g a := by
  intro acts
  induction acts with
  | nil => simp
  | cons a as ih =>
    intro acc x
    rw [List.foldl_cons, ih, mem_insertChild]
    simp only [List.mem_cons]
    constructor
    · rintro (⟨rfl | hx⟩ | ⟨b, hb, rfl⟩)
      · exact Or.inr ⟨a, Or.inl rfl, rfl⟩
      · exact Or.inl hx
      · exact Or.inr ⟨b, Or.inr hb, rfl⟩
    · rintro (hx | ⟨b, rfl | hb, rfl⟩)
      · exact Or.inl (Or.inr hx)
      · exact Or.inl (Or.inl rfl)
      · exact Or.inr ⟨b, hb, rfl⟩

lemma foldl_insertChild_sorted (g : Nat → Node × Nat) :
    ∀ (acts : List Nat) (acc : List (Node × Nat)), costSorted acc →
      costSorted (acts.foldl (fun acc a => insertChild (g a) acc) acc) := by
  intro acts
  induction acts with
  | nil => intro acc h; exact h
  | cons a as ih =>
    intro acc h
    rw [List.foldl_cons]
    exact ih _ (insertChild_sorted h)

lemma mem_mkChildren {p : Problem} {f : Node → Nat} {node : Node} {f_N F_N : Nat}
    {x : Node × Nat} :
    x ∈ mkChildren p f node f_N F_N ↔
      ∃ a ∈ p.actions node.state, x = childEntry p f node f_N F_N a := by
  rw [mkChildren]
  rw [mem_foldl_insertChild (childEntry p f node f_N F_N)]
  simp

lemma mkChildren_sorted {p : Problem} {f : Node → Nat} {node : Node} {f_N F_N : Nat} :
    costSorted (mkChildren p f node f_N F_N) := by
  rw [mkChildren]
  exact foldl_insertChild_sorted (childEntry p f node f_N F_N) _ _ (by simp [costSorted])

lemma childEntry_cost (p : Problem) (f : Node → Nat) (node : Node) (f_N F_N a : Nat) :
    (childEntry p f node f_N F_N a).2 =
      if f_N < F_N then max F_N (f (childEntry p f node f_N F_N a).1)
      else f (childEntry p f node f_N F_N a).1 := rfl

lemma childEntry_node (p : Problem) (f : Node → Nat) (node : Node) (f_N F_N a : Nat) :
    (childEntry p f node f_N F_N a).1 = p.childNode node a (p.result node.state a) := rfl

/-- The central invariant of the RBFS recursion: whatever a call returns,
every recursive invocation it makes (directly or transitively) is made with
a propagated cost F at most the bound it is invoked with and strictly below
RBFS_INF; and when a call returns no goal node, the returned cost is at most
RBFS_INF and is either strictly above the bound B or exactly RBFS_INF. -/
lemma rbfs_main (p : Problem) (f : Node → Nat) (hf : ∀ n, f n ≤ RBFS_INF) :
    ∀ fuel : Nat,
    (∀ NODE F_N B r c tr, F_N ≤ RBFS_INF →
      recursive_best_first_search p f fuel NODE F_N B = some ((r, c), tr) →
      (∀ q ∈ tr, q.1 ≤ q.2 ∧ q.1 < RBFS_INF) ∧
      (r = none → c ≤ RBFS_INF ∧ (B < c ∨ c = RBFS_INF))) ∧
    (∀ children B r c tr, costSorted children → (∀ x ∈ children, x.2 ≤ RBFS_INF) →
      rbfs_child_loop p f fuel children B = some ((r, c), tr) →
      (∀ q ∈ tr, q.1 ≤ q.2 ∧ q.1 < RBFS_INF) ∧
      (r = none → c ≤ RBFS_INF ∧ (B < c ∨ c = RBFS_INF))) := by
  intro fuel
  induction fuel with
  | zero =>
    constructor
    · intro NODE F_N B r c tr _ h
      simp [recursive_best_first_search] at h
    · intro children B r c tr _ _ h
      simp [rbfs_child_loop] at h
  | succ fuel ih =>
    obtain ⟨ihR, ihL⟩ := ih
    have loopStep : ∀ children B r c tr, costSorted children →
        (∀ x ∈ children, x.2 ≤ RBFS_INF) →
        rbfs_child_loop p f (fuel + 1) children B = some ((r, c), tr) →
        (∀ q ∈ tr, q.1 ≤ q.2 ∧ q.1 < RBFS_INF) ∧
        (r = none → c ≤ RBFS_INF ∧ (B < c ∨ c = RBFS_INF)) := by
      intro children B r c tr hsort hbound h
      match children with
      | [] => simp [rbfs_child_loop] at h
      | BEST :: rest =>
        rw [rbfs_child_loop] at h
        by_cases hg : BEST.2 ≤ B ∧ BEST.2 < RBFS_INF
        · rw [if_pos hg] at h
          simp only [] at h
          have hBle : BEST.2 ≤ min B (second_best_cost rest) :=
            le_min hg.1 (head_le_second hsort hg.2)
          have hBINF : BEST.2 ≤ RBFS_INF := hbound _ (List.mem_cons_self _ _)
          cases hrec : recursive_best_first_search p f fuel BEST.1 BEST.2
              (min B (second_best_cost rest)) with
          | none => rw [hrec] at h; simp at h
          | some val =>
            obtain ⟨⟨r1, c1⟩, tr1⟩ := val
            rw [hrec] at h
            have hrecprop := ihR BEST.1 BEST.2 (min B (second_best_cost rest)) r1 c1 tr1 hBINF hrec
            cases r1 with
            | some g =>
              simp only [Option.some.injEq, Prod.mk.injEq] at h
              obtain ⟨⟨hr, hc⟩, htr⟩ := h
              subst hr hc htr
              refine ⟨?_, by simp⟩
              intro q hq
              rcases List.mem_cons.mp hq with rfl | hq
              · exact ⟨hBle, hg.2⟩
              · exact hrecprop.1 q hq
            | none =>
              dsimp only at h
              cases hloop : rbfs_child_loop p f fuel (insertChild (BEST.1, c1) rest) B with
              | none => rw [hloop] at h; simp at h
              | some val2 =>
                obtain ⟨⟨r2, c2⟩, tr2⟩ := val2
                rw [hloop] at h
                simp only [Option.some.injEq, Prod.mk.injEq] at h
                obtain ⟨⟨hr, hc⟩, htr⟩ := h
                subst hr hc htr
                have hc1INF : c1 ≤ RBFS_INF := (hrecprop.2 rfl).1
                have hsort2 : costSorted (insertChild (BEST.1, c1) rest) :=
                  insertChild_sorted (costSorted_rest hsort)
                have hbound2 : ∀ x ∈ insertChild (BEST.1, c1) rest, x.2 ≤ RBFS_INF := by
                  intro x hx
                  rcases mem_insertChild.mp hx with rfl | hx
                  · exact hc1INF
                  · exact hbound x (List.mem_cons_of_mem _ hx)
                have hloopprop := ihL _ B _ _ tr2 hsort2 hbound2 hloop
                refine ⟨?_, hloopprop.2⟩
                intro q hq
                rcases List.mem_append.mp hq with hq | hq
                · rcases List.mem_cons.mp hq with rfl | hq
                  · exact ⟨hBle, hg.2⟩
                  · exact hrecprop.1 q hq
                · exact hloopprop.1 q hq
        · rw [if_neg hg] at h
          simp only [Option.some.injEq, Prod.mk.injEq] at h
          obtain ⟨⟨hr, hc⟩, htr⟩ := h
          refine ⟨by rw [← htr]; simp, ?_⟩
          intro _
          rw [← hc]
          have hBINF : BEST.2 ≤ RBFS_INF := hbound _ (List.mem_cons_self _ _)
          refine ⟨hBINF, ?_⟩
          by_cases hcB : BEST.2 ≤ B
          · right
            have hnlt : ¬ BEST.2 < RBFS_INF := fun hlt => hg ⟨hcB, hlt⟩
            omega
          · left
            omega
    constructor
    · intro NODE F_N B r c tr hF h
      rw [recursive_best_first_search] at h
      by_cases h1 : f NODE > B
      · rw [if_pos h1] at h
        simp only [Option.some.injEq, Prod.mk.injEq] at h
        obtain ⟨⟨hr, hc⟩, htr⟩ := h
        subst hr hc htr
        exact ⟨by simp, fun _ => ⟨hf NODE, Or.inl h1⟩⟩
      · rw [if_neg h1] at h
        by_cases h2 : p.goal_test NODE.state
        · rw [if_pos h2] at h
          simp only [Option.some.injEq, Prod.mk.injEq] at h
          obtain ⟨⟨hr, hc⟩, htr⟩ := h
          subst hc htr
          exact ⟨by simp, by simp [← hr]⟩
        · rw [if_neg h2] at h
          by_cases h3 : p.actions NODE.state = []
          · rw [if_pos h3] at h
            simp only [Option.some.injEq, Prod.mk.injEq] at h
            obtain ⟨⟨hr, hc⟩, htr⟩ := h
            subst hr hc htr
            exact ⟨by simp, fun _ => ⟨le_refl _, Or.inr rfl⟩⟩
          · rw [if_neg h3] at h
            have hb : ∀ x ∈ mkChildren p f NODE (f NODE) F_N, x.2 ≤ RBFS_INF := by
              intro x hx
              obtain ⟨a, _, rfl⟩ := mem_mkChildren.mp hx
              rw [childEntry_cost]
              split
              · exact max_le hF (hf _)
              · exact hf _
            exact ihL _ _ _ _ _ mkChildren_sorted hb h
    · exact loopStep

lemma findState_none_iff {fr : List Node} {s : Nat} :
    findState fr s = none ↔ ∀ n ∈ fr, n.state ≠ s := by
  induction fr with
  | nil => simp [findState]
  | cons n ns ih =>
    rw [findState]
    by_cases he : n.state = s
    · rw [if_pos he]
      constructor
      · intro h; cases h
      · intro h; exact absurd he (h n (List.mem_cons_self _ _))
    · rw [if_neg he, ih]
      constructor
      · intro h m hm
        rcases List.mem_cons.mp hm with rfl | hm
        · exact he
        · exact h m hm
      · intro h m hm
        exact h m (List.mem_cons_of_mem _ hm)

lemma findState_some {fr : List Node} {s : Nat} {d : Node} (h : findState fr s = some d) :
    d ∈ fr ∧ d.state = s := by
  induction fr with
  | nil => simp [findState] at h
  | cons n ns ih =>
    rw [findState] at h
    by_cases he : n.state = s
    · rw [if_pos he] at h
      obtain rfl := Option.some.inj h
      exact ⟨List.mem_cons_self _ _, he⟩
    · rw [if_neg he] at h
      obtain ⟨hm, hs⟩ := ih h
      exact ⟨List.mem_cons_of_mem _ hm, hs⟩

lemma length_increase (fr : List Node) (s : Nat) (c : Node) :
    (increase fr s c).length = fr.length := by
  induction fr with
  | nil => rfl
  | cons n ns ih =>
    rw [increase]
    split
    · simp
    · simp [ih]

lemma map_state_increase (fr : List Node) (c : Node) :
    (increase fr c.state c).map Node.state = fr.map Node.state := by
  induction fr with
  | nil => rfl
  | cons n ns ih =>
    rw [increase]
    by_cases he : n.state = c.state
    · rw [if_pos he]
      simp [he]
    · rw [if_neg he]
      simp [ih]

lemma mem_increase {x : Node} {fr : List Node} {s : Nat} {c : Node}
    (h : x ∈ increase fr s c) : x ∈ fr ∨ x = c := by
  induction fr with
  | nil => simp [increase] at h
  | cons n ns ih =>
    rw [increase] at h
    split at h
    · rcases List.mem_cons.mp h with rfl | h
      · right; rfl
      · left; exact List.mem_cons_of_mem _ h
    · rcases List.mem_cons.mp h with rfl | h
      · left; exact List.mem_cons_self _ _
      · rcases ih h with h | h
        · left; exact List.mem_cons_of_mem _ h
        · right; exact h

lemma filter_increase (fr : List Node) (c : Node) :
    (increase fr c.state c).filter (fun n => ! (n.state == c.state)) =
      fr.filter (fun n => ! (n.state == c.state)) := by
  induction fr with
  | nil => rfl
  | cons n ns ih =>
    rw [increase]
    by_cases he : n.state = c.state
    · rw [if_pos he]
      rw [List.filter_cons, List.filter_cons]
      simp [he]
    · rw [if_neg he]
      rw [List.filter_cons, List.filter_cons]
      simp [he, ih]

lemma handle_child_mem {fr : List Node} {c x : Node}
    (h : x ∈ (handle_child fr c).1) : x ∈ fr ∨ x = c := by
  rw [handle_child] at h
  cases hfind : findState fr c.state with
  | none =>
    rw [hfind] at h
    dsimp at h
    rcases List.mem_append.mp h with h | h
    · exact Or.inl h
    · exact Or.inr (List.mem_singleton.mp h)
  | some d =>
    rw [hfind] at h
    dsimp at h
    split at h
    · exact mem_increase h
    · exact Or.inl h

lemma handle_child_states (fr : List Node) (c : Node) :
    ((handle_child fr c).1.map Node.state = fr.map Node.state) ∨
    ((handle_child fr c).1.map Node.state = fr.map Node.state ++ [c.state] ∧
      ∀ n ∈ fr, n.state ≠ c.state) := by
  rw [handle_child]
  cases hfind : findState fr c.state with
  | none =>
    right
    constructor
    · simp
    · exact findState_none_iff.mp hfind
  | some d =>
    left
    dsimp
    split
    · exact map_state_increase fr c
    · rfl

lemma handle_child_nodup {fr : List Node} {c : Node} (h : (fr.map Node.state).Nodup) :
    ((handle_child fr c).1.map Node.state).Nodup := by
  rcases handle_child_states fr c with he | ⟨he, hnotin⟩
  · rw [he]; exact h
  · rw [he]
    rw [List.nodup_append]
    refine ⟨h, List.nodup_singleton _, ?_⟩
    intro s hs hs'
    obtain ⟨n, hn, rfl⟩ := List.mem_map.mp hs
    exact hnotin n hn (List.mem_singleton.mp hs')

lemma popMin_split (key : Node → Nat) :
    ∀ (x : Node) (xs : List Node) (m : Node) (r : List Node),
      popMin key x xs = (m, r) → ∃ l1 l2, x :: xs = l1 ++ m :: l2 ∧ r = l1 ++ l2 := by
  intro x xs
  induction xs generalizing x with
  | nil =>
    intro m r h
    rw [popMin] at h
    injection h with h1 h2
    subst h1 h2
    exact ⟨[], [], rfl, rfl⟩
  | cons y ys ih =>
    intro m r h
    rw [popMin] at h
    cases hp : popMin key y ys with
    | mk m' r' =>
      rw [hp] at h
      dsimp at h
      split at h
      · injection h with h1 h2
        subst h1 h2
        obtain ⟨l1, l2, he, hr⟩ := ih y m' r' hp
        refine ⟨x :: l1, l2, ?_, ?_⟩
        · rw [List.cons_append, ← he]
        · rw [hr, List.cons_append]
      · injection h with h1 h2
        subst h1 h2
        exact ⟨[], y :: ys, rfl, rfl⟩

lemma childNode_state (p : Problem) (n : Node) (a s : Nat) :
    (p.childNode n a s).state = s := rfl

lemma originOf_childNode (p : Problem) (n : Node) (a s : Nat) :
    originOf (p.childNode n a s) = originOf n := rfl

lemma expand_fold_inv (p : Problem) (S : Node) (closed : List Nat) :
    ∀ (acts : List Nat) (fr : List Node),
      (fr.map Node.state).Nodup → (∀ n ∈ fr, n.state ∉ closed) →
      ((acts.foldl (expandStep p S closed) fr).map Node.state).Nodup ∧
      (∀ n ∈ acts.foldl (expandStep p S closed) fr, n.state ∉ closed) := by
  intro acts
  induction acts with
  | nil => intro fr h1 h2; exact ⟨h1, h2⟩
  | cons a as ih =>
    intro fr h1 h2
    rw [List.foldl_cons]
    apply ih
    · rw [expandStep]
      split
      · exact h1
      · exact handle_child_nodup h1
    · rw [expandStep]
      split
      · exact h2
      · rename_i hnotc
        intro n hn
        rcases handle_child_mem hn with hn | rfl
        · exact h2 n hn
        · rw [childNode_state]
          exact hnotc

lemma expand_inv (p : Problem) (S : Node) (closed : List Nat) (fr : List Node)
    (h1 : (fr.map Node.state).Nodup) (h2 : ∀ n ∈ fr, n.state ∉ closed) :
    ((expand p S closed fr).map Node.state).Nodup ∧
    (∀ n ∈ expand p S closed fr, n.state ∉ closed) :=
  expand_fold_inv p S closed _ fr h1 h2

lemma expand_origin (p : Problem) (S : Node) (closed : List Nat) (i : Nat)
    (hS : originOf S = i) :
    ∀ (acts : List Nat) (fr : List Node), (∀ n ∈ fr, originOf n = i) →
      ∀ n ∈ acts.foldl (expandStep p S closed) fr, originOf n = i := by
  intro acts
  induction acts with
  | nil => intro fr h n hn; exact h n hn
  | cons a as ih =>
    intro fr h
    rw [List.foldl_cons]
    apply ih
    rw [expandStep]
    split
    · exact h
    · intro n hn
      rcases handle_child_mem hn with hn | rfl
      · exact h n hn
      · rw [originOf_childNode]
        exact hS

lemma unravel_eq_parentChain (n : Node) :
    unravel n = (parentChain n).map Node.state := by
  induction n with
  | root s a c => rfl
  | child s pnt a c ih =>
    rw [unravel, parentChain, List.map_cons, ih]
    rfl

lemma unravel_head (n : Node) : (unravel n).head? = some n.state := by
  cases n with
  | root s a c => rfl
  | child s pnt a c => rfl

lemma unravel_getLast (n : Node) : (unravel n).getLast? = some (originOf n) := by
  induction n with
  | root s a c => rfl
  | child s pnt a c ih =>
    rw [unravel]
    cases hu : unravel pnt with
    | nil => rw [hu] at ih; cases ih
    | cons q qs =>
      rw [hu] at ih
      rw [List.getLast?_cons_cons, ih]
      rfl

lemma graph_aux_nodup (p : Problem) (key : Node → Nat) :
    ∀ (fuel : Nat) (st : GState) (tr : List Node) (fin : GState)
      (res : Except Unit (List Nat × Nat)),
      best_first_search_graph_aux p key fuel st = some (tr, fin, res) →
      (st.frontier.map Node.state).Nodup → (∀ n ∈ st.frontier, n.state ∉ st.closed) →
      (tr.map Node.state).Nodup ∧ (∀ n ∈ tr, n.state ∉ st.closed) := by
  intro fuel
  induction fuel with
  | zero => intro st tr fin res h _ _; simp [best_first_search_graph_aux] at h
  | succ fuel ih =>
    intro st tr fin res h h1 h2
    rw [best_first_search_graph_aux] at h
    cases hfr : st.frontier with
    | nil =>
      rw [hfr] at h
      simp only [Option.some.injEq, Prod.mk.injEq] at h
      obtain ⟨htr, -, -⟩ := h
      subst htr
      exact ⟨by simp, by simp⟩
    | cons x xs =>
      rw [hfr] at h
      dsimp only at h
      cases hp : popMin key x xs with
      | mk S rest =>
        rw [hp] at h
        obtain ⟨l1, l2, hsplit, hrest⟩ := popMin_split key x xs S rest hp
        have hfr_eq : st.frontier = l1 ++ S :: l2 := by rw [hfr, hsplit]
        have hS_mem : S ∈ st.frontier := by
          rw [hfr_eq]
          exact List.mem_append_right _ (List.mem_cons_self _ _)
        have hrest_sub : ∀ n ∈ rest, n ∈ st.frontier := by
          intro n hn
          rw [hrest] at hn
          rw [hfr_eq]
          rcases List.mem_append.mp hn with hn | hn
          · exact List.mem_append_left _ hn
          · exact List.mem_append_right _ (List.mem_cons_of_mem _ hn)
        have hmid : (l1.map Node.state ++ S.state :: l2.map Node.state).Nodup := by
          have hx := h1
          rw [hfr_eq] at hx
          simpa using hx
        have hmid' := List.nodup_middle.mp hmid
        rw [List.nodup_cons] at hmid'
        have hrest_states : rest.map Node.state = l1.map Node.state ++ l2.map Node.state := by
          rw [hrest]; simp
        cases hgoal : p.goal_test S.state with
        | true =>
          rw [if_pos (by simp [hgoal])] at h
          simp only [Option.some.injEq, Prod.mk.injEq] at h
          obtain ⟨htr, -⟩ := h
          subst htr
          refine ⟨by simp, ?_⟩
          intro n hn
          obtain rfl := List.mem_singleton.mp hn
          exact h2 _ hS_mem
        | false =>
          rw [if_neg (by simp [hgoal])] at h
          cases hrec : best_first_search_graph_aux p key fuel
              ⟨expand p S (List.insert S.state st.closed) rest,
               List.insert S.state st.closed⟩ with
          | none => rw [hrec] at h; simp at h
          | some val =>
            obtain ⟨tr', fin', res'⟩ := val
            rw [hrec] at h
            simp only [Option.some.injEq, Prod.mk.injEq] at h
            obtain ⟨htr, hfin, hres⟩ := h
            subst htr
            have hnodup_rest : (rest.map Node.state).Nodup := by
              rw [hrest_states]; exact hmid'.2
            have hclosed_rest : ∀ n ∈ rest, n.state ∉ List.insert S.state st.closed := by
              intro n hn
              rw [List.mem_insert_iff]
              push_neg
              constructor
              · intro heq
                have hmm : n.state ∈ rest.map Node.state := List.mem_map_of_mem _ hn
                rw [hrest_states] at hmm
                rw [heq] at hmm
                exact hmid'.1 hmm
              · exact h2 n (hrest_sub n hn)
            obtain ⟨He1, He2⟩ := expand_inv p S (List.insert S.state st.closed) rest
              hnodup_rest hclosed_rest
            obtain ⟨Hn, Hc⟩ := ih _ tr' fin' res' hrec He1 He2
            constructor
            · rw [List.map_cons, List.nodup_cons]
              constructor
              · intro hmem
                obtain ⟨n, hn, heq⟩ := List.mem_map.mp hmem
                exact (Hc n hn) (List.mem_insert_iff.mpr (Or.inl heq))
              · exact Hn
            · intro n hn
              rcases List.mem_cons.mp hn with rfl | hn
              · exact h2 _ hS_mem
              · intro hmem
                exact Hc n hn (List.mem_insert_iff.mpr (Or.inr hmem))

lemma graph_aux_ok (p : Problem) (key : Node → Nat) :
    ∀ (fuel : Nat) (st : GState) (tr : List Node) (fin : GState)
      (path : List Nat) (cost : Nat),
      best_first_search_graph_aux p key fuel st = some (tr, fin, .ok (path, cost)) →
      (∀ n ∈ st.frontier, originOf n = p.initial) →
      ∃ S, tr.getLast? = some S ∧ p.goal_test S.state = true ∧
        path = unravel S ∧ cost = S.path_cost ∧ originOf S = p.initial := by
  intro fuel
  induction fuel with
  | zero => intro st tr fin path cost h _; simp [best_first_search_graph_aux] at h
  | succ fuel ih =>
    intro st tr fin path cost h horig
    rw [best_first_search_graph_aux] at h
    cases hfr : st.frontier with
    | nil =>
      rw [hfr] at h
      simp at h
    | cons x xs =>
      rw [hfr] at h
      dsimp only at h
      cases hp : popMin key x xs with
      | mk S rest =>
        rw [hp] at h
        obtain ⟨l1, l2, hsplit, hrest⟩ := popMin_split key x xs S rest hp
        have hS_mem : S ∈ st.frontier := by
          rw [hfr, hsplit]
          exact List.mem_append_right _ (List.mem_cons_self _ _)
        cases hgoal : p.goal_test S.state with
        | true =>
          rw [if_pos (by simp [hgoal])] at h
          simp only [Option.some.injEq, Prod.mk.injEq, Except.ok.injEq] at h
          obtain ⟨htr, -, hpath, hcost⟩ := h
          subst htr
          exact ⟨S, by simp, hgoal, hpath.symm, hcost.symm, horig S hS_mem⟩
        | false =>
          rw [if_neg (by simp [hgoal])] at h
          cases hrec : best_first_search_graph_aux p key fuel
              ⟨expand p S (List.insert S.state st.closed) rest,
               List.insert S.state st.closed⟩ with
          | none => rw [hrec] at h; simp at h
          | some val =>
            obtain ⟨tr', fin', res'⟩ := val
            rw [hrec] at h
            simp only [Option.some.injEq, Prod.mk.injEq] at h
            obtain ⟨htr, hfin, hres⟩ := h
            subst htr hres
            have horig' : ∀ n ∈ expand p S (List.insert S.state st.closed) rest,
                originOf n = p.initial := by
              apply expand_origin p S _ _ (horig S hS_mem)
              intro n hn
              apply horig
              rw [hrest] at hn
              rw [hfr, hsplit]
              rcases List.mem_append.mp hn with hn | hn
              · exact List.mem_append_left _ hn
              · exact List.mem_append_right _ (List.mem_cons_of_mem _ hn)
            obtain ⟨Sg, hlast, hg, hpath, hcost, ho⟩ := ih _ tr' fin' path cost hrec horig'
            refine ⟨Sg, ?_, hg, hpath, hcost, ho⟩
            cases tr' with
            | nil => simp at hlast
            | cons q qs =>
              rw [List.getLast?_cons_cons]
              exact hlast

lemma graph_aux_error_iff (p : Problem) (key : Node → Nat) :
    ∀ (fuel : Nat) (st : GState) (tr : List Node) (fin : GState)
      (res : Except Unit (List Nat × Nat)),
      best_first_search_graph_aux p key fuel st = some (tr, fin, res) →
      (res = .error () ↔ fin.frontier = [] ∧ ∀ n ∈ tr, p.goal_test n.state = false) := by
  intro fuel
  induction fuel with
  | zero => intro st tr fin res h; simp [best_first_search_graph_aux] at h
  | succ fuel ih =>
    intro st tr fin res h
    rw [best_first_search_graph_aux] at h
    cases hfr : st.frontier with
    | nil =>
      rw [hfr] at h
      simp only [Option.some.injEq, Prod.mk.injEq] at h
      obtain ⟨htr, hfin, hres⟩ := h
      subst htr hres
      rw [← hfin]
      simp [hfr]
    | cons x xs =>
      rw [hfr] at h
      dsimp only at h
      cases hp : popMin key x xs with
      | mk S rest =>
        rw [hp] at h
        cases hgoal : p.goal_test S.state with
        | true =>
          rw [if_pos (by simp [hgoal])] at h
          simp only [Option.some.injEq, Prod.mk.injEq] at h
          obtain ⟨htr, hfin, hres⟩ := h
          subst htr hres
          simp [hgoal]
        | false =>
          rw [if_neg (by simp [hgoal])] at h
          cases hrec : best_first_search_graph_aux p key fuel
              ⟨expand p S (List.insert S.state st.closed) rest,
               List.insert S.state st.closed⟩ with
          | none => rw [hrec] at h; simp at h
          | some val =>
            obtain ⟨tr', fin', res'⟩ := val
            rw [hrec] at h
            simp only [Option.some.injEq, Prod.mk.injEq] at h
            obtain ⟨htr, hfin, hres⟩ := h
            subst htr
            subst hfin
            subst hres
            rw [ih _ _ _ _ hrec]
            simp [hgoal]

lemma tree_aux_error_iff (p : Problem) (key : Node → Nat) :
    ∀ (fuel : Nat) (frontier : List Node) (tr fin : List Node) (res : Except Unit Node),
      best_first_search_tree_aux p key fuel frontier = some (tr, fin, res) →
      (res = .error () ↔ fin = [] ∧ ∀ n ∈ tr, p.goal_test n.state = false) := by
  intro fuel
  induction fuel with
  | zero => intro frontier tr fin res h; simp [best_first_search_tree_aux] at h
  | succ fuel ih =>
    intro frontier tr fin res h
    rw [best_first_search_tree_aux.eq_def] at h
    cases hfr : frontier with
    | nil =>
      rw [hfr] at h
      simp only [Option.some.injEq, Prod.mk.injEq] at h
      obtain ⟨htr, hfin, hres⟩ := h
      subst htr hres
      simp [← hfin]
    | cons x xs =>
      rw [hfr] at h
      dsimp only at h
      cases hp : popMin key x xs with
      | mk S rest =>
        rw [hp] at h
        cases hgoal : p.goal_test S.state with
        | true =>
          rw [if_pos (by simp [hgoal])] at h
          simp only [Option.some.injEq, Prod.mk.injEq] at h
          obtain ⟨htr, hfin, hres⟩ := h
          subst htr hres
          simp [hgoal]
        | false =>
          rw [if_neg (by simp [hgoal])] at h
          cases hrec : best_first_search_tree_aux p key fuel
              (rest ++ (p.actions S.state).map fun a => p.childNode S a (p.result S.state a)) with
          | none => rw [hrec] at h; simp at h
          | some val =>
            obtain ⟨tr', fin', res'⟩ := val
            rw [hrec] at h
            simp only [Option.some.injEq, Prod.mk.injEq] at h
            obtain ⟨htr, hfin, hres⟩ := h
            subst htr
            subst hfin
            subst hres
            rw [ih _ _ _ _ hrec]
            simp [hgoal]

/-- Fixture: a problem whose only reachable state 0 is not a goal and has no
actions (spec section 8, scenario 2). -/
def deadEndProblem : Problem :=
  ⟨0, fun _ => false, fun _ => [], fun _ _ => 0, fun _ _ _ => 0⟩

/-- Fixture: a problem whose initial state 7 is itself a goal. -/
def goalAtStartProblem : Problem :=
  ⟨7, fun s => s == 7, fun _ => [], fun _ _ => 0, fun _ _ _ => 0⟩

/-- Fixture: two states, 0 with a single action leading to the goal state 1
at step cost 1. -/
def dropProblem : Problem :=
  ⟨0, fun s => s == 1, fun s => if s = 0 then [0] else [], fun _ _ => 1, fun _ _ _ => 1⟩

/-- Fixture cost function modelling f = path_cost + h with the inconsistent
heuristic h(0) = 5, h(other) = 0: f drops from 5 at the root to 1 at the
child. -/
def dropCost : Node → Nat := fun n => n.path_cost + (if n.state = 0 then 5 else 0)

/-- Fixture: the constant-zero cost function. -/
def zeroCost : Node → Nat := fun _ => 0

/-- Fixture: the constant-zero comparator key. -/
def zeroKey : Node → Nat := fun _ => 0

/-- Claim C1 counterexample: the invocation of the recursive RBFS function
on a non-goal, action-less root with bound B = RBFS_INF (exactly how the
top-level wrapper seeds it) returns no goal node together with the cost
RBFS_INF, and that returned cost is not strictly greater than the bound. -/
theorem claim1_counterexample :
    recursive_best_first_search deadEndProblem zeroCost 1 deadEndProblem.rootNode
        (zeroCost deadEndProblem.rootNode) RBFS_INF = some ((none, RBFS_INF), []) ∧
    ¬ (RBFS_INF > RBFS_INF) := by
  constructor
  · rfl
  · simp

/-- Claim C1 (amended): for every invocation of the recursive RBFS function
that returns no goal node, the returned cost is strictly greater than the
bound B whenever B < RBFS_INF, and in general is either strictly greater
than B or exactly RBFS_INF; and within the child loops, every recursive
call is invoked with a bound min(B, second-best cost) that is at least the
propagated cost of the best child that triggered it. -/
theorem claim1_rbfs_bound (p : Problem) (f : Node → Nat) (fuel : Nat)
    (NODE : Node) (F_N B : Nat) (r : Option Node) (c : Nat) (tr : List (Nat × Nat))
    (hf : ∀ n, f n ≤ RBFS_INF) (hF : F_N ≤ RBFS_INF)
    (h : recursive_best_first_search p f fuel NODE F_N B = some ((r, c), tr)) :
    (r = none → ((B < RBFS_INF → B < c) ∧ (B < c ∨ c = RBFS_INF))) ∧
    (∀ q ∈ tr, q.1 ≤ q.2) := by
  obtain ⟨h1, h2⟩ := (rbfs_main p f hf fuel).1 NODE F_N B r c tr hF h
  constructor
  · intro hr
    obtain ⟨-, hd⟩ := h2 hr
    refine ⟨?_, hd⟩
    intro hB
    rcases hd with hd | rfl
    · exact hd
    · exact hB
  · intro q hq
    exact (h1 q hq).1

/-- Claim C1 witness: the amended bound property evaluated on the dead-end
problem with bound 5 at fuel 1. -/
theorem claim1_witness :
    ((none : Option Node) = none →
      ((5 < RBFS_INF → 5 < RBFS_INF) ∧ (5 < RBFS_INF ∨ RBFS_INF = RBFS_INF))) ∧
    (∀ q ∈ ([] : List (Nat × Nat)), q.1 ≤ q.2) :=
  claim1_rbfs_bound deadEndProblem zeroCost 1 deadEndProblem.rootNode 0 5 none RBFS_INF []
    (fun _ => Nat.zero_le _) (Nat.zero_le _) (by rfl)

/-- Claim C3 counterexample: with the inconsistent cost function dropCost,
the top-level call on dropProblem (F = f(root) = 5) makes a recursive call
whose propagated cost argument is 1 < 5, so the propagated bound along the
root-to-child path is not monotonically non-decreasing. -/
theorem claim3_counterexample :
    recursive_best_first_search dropProblem dropCost 3 dropProblem.rootNode
        (dropCost dropProblem.rootNode) RBFS_INF =
      some ((some (Node.child 1 dropProblem.rootNode 0 1), 0), [(1, RBFS_INF)]) ∧
    dropCost dropProblem.rootNode = 5 ∧ ¬ (5 ≤ 1) := by
  refine ⟨by rfl, by rfl, by simp⟩

/-- Claim C3 (amended): in every recursive RBFS call the propagated cost
stored with each child equals max(F, f_child) when f(node) < F and f_child
otherwise; when f(node) < F this makes every child's propagated cost at
least F, but along a general root-to-node path the propagated bound need
not be monotonically non-decreasing (it can drop at a frame with
f(node) >= F, e.g. at the root under an inconsistent heuristic). -/
theorem claim3_propagated_cost (p : Problem) (f : Node → Nat) (node : Node)
    (f_N F_N : Nat) :
    (∀ x ∈ mkChildren p f node f_N F_N,
      ∃ a ∈ p.actions node.state,
        x.1 = p.childNode node a (p.result node.state a) ∧
        x.2 = if f_N < F_N then max F_N (f x.1) else f x.1) ∧
    (f_N < F_N → ∀ x ∈ mkChildren p f node f_N F_N, F_N ≤ x.2) ∧
    (∀ fuel B, ¬ f node > B → p.goal_test node.state = false →
      p.actions node.state ≠ [] →
      recursive_best_first_search p f (fuel + 1) node F_N B =
        rbfs_child_loop p f fuel (mkChildren p f node (f node) F_N) B) := by
  refine ⟨?_, ?_, ?_⟩
  · intro x hx
    obtain ⟨a, ha, rfl⟩ := mem_mkChildren.mp hx
    exact ⟨a, ha, childEntry_node p f node f_N F_N a, by rw [childEntry_cost]⟩
  · intro hlt x hx
    obtain ⟨a, ha, rfl⟩ := mem_mkChildren.mp hx
    rw [childEntry_cost, if_pos hlt]
    exact le_max_left _ _
  · intro fuel B h1 h2 h3
    rw [recursive_best_first_search, if_neg h1, if_neg (by simp [h2]), if_neg h3]

/-- Claim C3 witness: the stored-cost formula evaluated on dropProblem at
the root frame with f = F = 5: the sole child is stored with plain f_child. -/
theorem claim3_witness :
    ∃ a ∈ dropProblem.actions (dropProblem.rootNode).state,
      (Node.child 1 dropProblem.rootNode 0 1, 1).1 =
        dropProblem.childNode dropProblem.rootNode a
          (dropProblem.result (dropProblem.rootNode).state a) ∧
      (Node.child 1 dropProblem.rootNode 0 1, 1).2 =
        if (5 : Nat) < 5 then
          max 5 (dropCost (Node.child 1 dropProblem.rootNode 0 1, 1).1)
        else dropCost (Node.child 1 dropProblem.rootNode 0 1, 1).1 :=
  (claim3_propagated_cost dropProblem dropCost dropProblem.rootNode 5 5).1
    (Node.child 1 dropProblem.rootNode 0 1, 1) (by decide)

/-- Claim C4: one iteration of the RBFS child loop behaves exactly as
specified: the sentinel second-best cost of a singleton family is RBFS_INF;
when the best stored cost is not both at most B and below RBFS_INF the loop
exits returning no goal and the best stored cost; otherwise the best child
is recursed into with bound min(B, second-best cost), a goal result
propagates upward unchanged, and a no-goal result overwrites the best
child's stored cost with the returned cost (re-inserted in sorted order)
before the loop continues. -/
theorem claim4_child_loop (p : Problem) (f : Node → Nat) (fuel : Nat)
    (BEST : Node × Nat) (rest : List (Node × Nat)) (B : Nat) :
    (second_best_cost ([] : List (Node × Nat)) = RBFS_INF) ∧
    (¬ (BEST.2 ≤ B ∧ BEST.2 < RBFS_INF) →
      rbfs_child_loop p f (fuel + 1) (BEST :: rest) B = some ((none, BEST.2), [])) ∧
    (BEST.2 ≤ B ∧ BEST.2 < RBFS_INF →
      (∀ g c tr,
        recursive_best_first_search p f fuel BEST.1 BEST.2 (min B (second_best_cost rest)) =
          some ((some g, c), tr) →
        rbfs_child_loop p f (fuel + 1) (BEST :: rest) B =
          some ((some g, c), (BEST.2, min B (second_best_cost rest)) :: tr)) ∧
      (∀ R tr,
        recursive_best_first_search p f fuel BEST.1 BEST.2 (min B (second_best_cost rest)) =
          some ((none, R), tr) →
        rbfs_child_loop p f (fuel + 1) (BEST :: rest) B =
          match rbfs_child_loop p f fuel (insertChild (BEST.1, R) rest) B with
          | none => none
          | some (res2, tr2) =>
            some (res2, ((BEST.2, min B (second_best_cost rest)) :: tr) ++ tr2))) := by
  refine ⟨rfl, ?_, ?_⟩
  · intro hg
    rw [rbfs_child_loop, if_neg hg]
  · intro hg
    constructor
    · intro g c tr hrec
      rw [rbfs_child_loop, if_pos hg]
      simp only [hrec]
    · intro R tr hrec
      rw [rbfs_child_loop, if_pos hg]
      simp only [hrec]

/-- Claim C4 witness: the loop-exit case evaluated on a singleton family
whose stored cost RBFS_INF fails the loop guard at bound 0. -/
theorem claim4_witness :
    rbfs_child_loop deadEndProblem zeroCost 1 [(deadEndProblem.rootNode, RBFS_INF)] 0 =
      some ((none, RBFS_INF), []) :=
  (claim4_child_loop deadEndProblem zeroCost 0 (deadEndProblem.rootNode, RBFS_INF) [] 0).2.1
    (by decide)

/-- Claim C8: RBFS treats the finite value RBFS_INF (the largest
representable path cost, 2^64 - 1) as infinity: a reachable node with no
actions returns exactly RBFS_INF; the top-level wrapper is exactly the
recursion seeded with bound RBFS_INF; and no recursive call is ever made on
a child whose stored cost equals RBFS_INF. -/
theorem claim8_rbfs_infinity (p : Problem) (f : Node → Nat) :
    (∀ fuel NODE F_N B, ¬ f NODE > B → p.goal_test NODE.state = false →
      p.actions NODE.state = [] →
      recursive_best_first_search p f (fuel + 1) NODE F_N B = some ((none, RBFS_INF), [])) ∧
    (∀ fuel, recursive_best_first_search_top p f fuel =
      (recursive_best_first_search p f fuel p.rootNode (f p.rootNode) RBFS_INF).map
        (fun res => match res.1.1 with
          | some g => Except.ok g
          | none => Except.error ())) ∧
    (∀ fuel NODE F_N B r tr, (∀ n, f n ≤ RBFS_INF) → F_N ≤ RBFS_INF →
      recursive_best_first_search p f fuel NODE F_N B = some (r, tr) →
      ∀ q ∈ tr, q.1 < RBFS_INF) ∧
    RBFS_INF = 2 ^ 64 - 1 := by
  refine ⟨?_, ?_, ?_, rfl⟩
  · intro fuel NODE F_N B h1 h2 h3
    rw [recursive_best_first_search, if_neg h1, if_neg (by simp [h2]), if_pos h3]
  · intro fuel
    cases hrec : recursive_best_first_search p f fuel p.rootNode (f p.rootNode) RBFS_INF with
    | none => rw [recursive_best_first_search_top, hrec]; rfl
    | some val =>
      obtain ⟨⟨r1, c1⟩, tr1⟩ := val
      cases r1 with
      | none => rw [recursive_best_first_search_top, hrec]; rfl
      | some g => rw [recursive_best_first_search_top, hrec]; rfl
  · intro fuel NODE F_N B r tr hf hF h
    obtain ⟨r1, c1⟩ := r
    intro q hq
    exact (((rbfs_main p f hf fuel).1 NODE F_N B r1 c1 tr hF h).1 q hq).2

/-- Claim C8 witness: the dead-end case evaluated on deadEndProblem with
bound 0 returns exactly RBFS_INF. -/
theorem claim8_witness :
    recursive_best_first_search deadEndProblem zeroCost 1 deadEndProblem.rootNode 0 0 =
      some ((none, RBFS_INF), []) :=
  (claim8_rbfs_infinity deadEndProblem zeroCost).1 0 deadEndProblem.rootNode 0 0
    (by simp [zeroCost]) rfl rfl

/-- Claim C2: the duplicate-resolution routine handle_child pushes and
reports the candidate when its state is absent from the frontier (absence
being exactly what a failed find means), replaces the existing entry via
increase and reports the replaced old entry when the candidate's path cost
is strictly smaller, and otherwise leaves the frontier unchanged and
reports nothing. -/
theorem claim2_handle_child (fr : List Node) (c : Node) :
    (findState fr c.state = none ↔ ∀ n ∈ fr, n.state ≠ c.state) ∧
    (findState fr c.state = none →
      handle_child fr c = (fr ++ [c], some c)) ∧
    (∀ d, findState fr c.state = some d →
      (c.path_cost < d.path_cost →
        handle_child fr c = (increase fr c.state c, some d)) ∧
      (¬ c.path_cost < d.path_cost →
        handle_child fr c = (fr, none))) := by
  refine ⟨findState_none_iff, ?_, ?_⟩
  · intro h
    rw [handle_child, h]
  · intro d hd
    constructor
    · intro hlt
      rw [handle_child, hd]
      dsimp only
      rw [if_pos hlt]
    · intro hge
      rw [handle_child, hd]
      dsimp only
      rw [if_neg hge]

/-- Claim C2 witness: pushing into the empty frontier accepts the candidate. -/
theorem claim2_witness :
    handle_child [] deadEndProblem.rootNode =
      ([deadEndProblem.rootNode], some deadEndProblem.rootNode) :=
  (claim2_handle_child [] deadEndProblem.rootNode).2.1 rfl

/-- Claim C10: handle_child never touches a frontier entry whose state
differs from the candidate's (the sub-list of such entries is unchanged),
and its net effect on the frontier size is exactly +1 when the candidate's
state is new and exactly 0 when the state is already present (replace or
discard). -/
theorem claim10_handle_child_frame (fr : List Node) (c : Node) :
    ((handle_child fr c).1.filter (fun n => ! (n.state == c.state)) =
      fr.filter (fun n => ! (n.state == c.state))) ∧
    ((∀ n ∈ fr, n.state ≠ c.state) → (handle_child fr c).1.length = fr.length + 1) ∧
    ((∃ n ∈ fr, n.state = c.state) → (handle_child fr c).1.length = fr.length) := by
  rw [handle_child]
  cases hfind : findState fr c.state with
  | none =>
    dsimp only
    refine ⟨?_, ?_, ?_⟩
    · rw [List.filter_append]
      simp
    · intro _
      simp
    · intro ⟨n, hn, he⟩
      exact absurd he (findState_none_iff.mp hfind n hn)
  | some d =>
    dsimp only
    split
    · refine ⟨filter_increase fr c, ?_, ?_⟩
      · intro h
        exact absurd (findState_some hfind).2 (h d (findState_some hfind).1)
      · intro _
        exact length_increase fr c.state c
    · refine ⟨rfl, ?_, fun _ => rfl⟩
      intro h
      exact absurd (findState_some hfind).2 (h d (findState_some hfind).1)

/-- Claim C10 witness: the size effect of a push into the empty frontier. -/
theorem claim10_witness :
    (handle_child [] goalAtStartProblem.rootNode).1.length = ([] : List Node).length + 1 :=
  (claim10_handle_child_frame [] goalAtStartProblem.rootNode).2.1 (by simp)

/-- Claim C5: in Graph Search, a successor already in the closed set is
never turned into a child node nor passed to duplicate-resolution; the
expansion of a popped node preserves both the at-most-one-frontier-entry-
per-state invariant and the disjointness of frontier states from the closed
set; a popped non-goal state is inserted into the closed set before its
successors are generated; and over a whole run from the initial state the
popped (expanded) states are pairwise distinct. -/
theorem claim5_graph_unique_expansion (p : Problem) (key : Node → Nat) :
    (∀ S closed fr a, p.result S.state a ∈ closed →
      expandStep p S closed fr a = fr) ∧
    (∀ S closed fr, (fr.map Node.state).Nodup → (∀ n ∈ fr, n.state ∉ closed) →
      ((expand p S closed fr).map Node.state).Nodup ∧
      (∀ n ∈ expand p S closed fr, n.state ∉ closed)) ∧
    (∀ fuel st x xs S rest, st.frontier = x :: xs → popMin key x xs = (S, rest) →
      p.goal_test S.state = false →
      best_first_search_graph_aux p key (fuel + 1) st =
        (best_first_search_graph_aux p key fuel
          ⟨expand p S (List.insert S.state st.closed) rest, List.insert S.state st.closed⟩).map
          (fun r => (S :: r.1, r.2))) ∧
    (∀ fuel tr fin res, best_first_search_graph p key fuel = some (tr, fin, res) →
      (tr.map Node.state).Nodup) := by
  refine ⟨?_, ?_, ?_, ?_⟩
  · intro S closed fr a h
    rw [expandStep]
    rw [if_pos h]
  · intro S closed fr h1 h2
    exact expand_inv p S closed fr h1 h2
  · intro fuel st x xs S rest hfr hp hgoal
    rw [best_first_search_graph_aux, hfr]
    dsimp only
    rw [hp]
    dsimp only
    rw [if_neg (by simp [hgoal])]
    cases hrec : best_first_search_graph_aux p key fuel
        ⟨expand p S (List.insert S.state st.closed) rest, List.insert S.state st.closed⟩ with
    | none => rfl
    | some val =>
      obtain ⟨tr', fin', res'⟩ := val
      rfl
  · intro fuel tr fin res h
    rw [best_first_search_graph] at h
    obtain ⟨hn, -⟩ := graph_aux_nodup p key fuel _ tr fin res h (by simp) (by simp)
    exact hn

/-- Claim C5 witness: the popped states of the dead-end run are pairwise
distinct. -/
theorem claim5_witness :
    (([deadEndProblem.rootNode].map Node.state)).Nodup :=
  (claim5_graph_unique_expansion deadEndProblem zeroKey).2.2.2 2 [deadEndProblem.rootNode]
    ⟨[], [0]⟩ (.error ()) (by rfl)

/-- Claim C6: when Graph Search succeeds, the last popped node S passed the
goal test, the emitted output is exactly unravel S, which walks the parent
chain of S emitting one state per node in goal-to-root order (its head is
S's state and its last element is the initial state), and the returned cost
is S's path cost. -/
theorem claim6_goal_emission (p : Problem) (key : Node → Nat) (fuel : Nat)
    (tr : List Node) (fin : GState) (path : List Nat) (cost : Nat)
    (h : best_first_search_graph p key fuel = some (tr, fin, .ok (path, cost))) :
    ∃ S, tr.getLast? = some S ∧ p.goal_test S.state = true ∧
      path = unravel S ∧ unravel S = (parentChain S).map Node.state ∧
      path.head? = some S.state ∧ path.getLast? = some p.initial ∧
      cost = S.path_cost := by
  rw [best_first_search_graph] at h
  have horig : ∀ n ∈ (⟨[p.rootNode], []⟩ : GState).frontier, originOf n = p.initial := by
    intro n hn
    obtain rfl := List.mem_singleton.mp hn
    rfl
  obtain ⟨S, h1, h2, h3, h4, h5⟩ := graph_aux_ok p key fuel _ tr fin path cost h horig
  refine ⟨S, h1, h2, h3, unravel_eq_parentChain S, ?_, ?_, h4⟩
  · rw [h3]
    exact unravel_head S
  · rw [h3, unravel_getLast, h5]

/-- Claim C6 witness: the goal-at-start run emits exactly the initial state
and returns cost 0. -/
theorem claim6_witness :
    ∃ S, ([goalAtStartProblem.rootNode] : List Node).getLast? = some S ∧
      goalAtStartProblem.goal_test S.state = true ∧
      ([7] : List Nat) = unravel S ∧
      unravel S = (parentChain S).map Node.state ∧
      ([7] : List Nat).head? = some S.state ∧
      ([7] : List Nat).getLast? = some goalAtStartProblem.initial ∧
      (0 : Nat) = S.path_cost :=
  claim6_goal_emission goalAtStartProblem zeroKey 1 [goalAtStartProblem.rootNode]
    ⟨[], []⟩ [7] 0 (by rfl)

/-- Claim C7: the single error kind is raised exactly when no goal is
reached: a terminating Graph Search run reports the error precisely when
its final frontier is empty and no popped node passed the goal test, a
terminating Tree Search run likewise, and the RBFS entry point reports the
error precisely when the top-level recursive call (seeded with bound
RBFS_INF) returns no goal node. -/
theorem claim7_goal_not_found (p : Problem) (key : Node → Nat) (f : Node → Nat) :
    (∀ fuel tr fin res, best_first_search_graph p key fuel = some (tr, fin, res) →
      (res = .error () ↔ fin.frontier = [] ∧ ∀ n ∈ tr, p.goal_test n.state = false)) ∧
    (∀ fuel tr fin res, best_first_search_tree p key fuel = some (tr, fin, res) →
      (res = .error () ↔ fin = [] ∧ ∀ n ∈ tr, p.goal_test n.state = false)) ∧
    (∀ fuel, recursive_best_first_search_top p f fuel = some (.error ()) ↔
      ∃ c tr, recursive_best_first_search p f fuel p.rootNode (f p.rootNode) RBFS_INF =
        some ((none, c), tr)) := by
  refine ⟨?_, ?_, ?_⟩
  · intro fuel tr fin res h
    rw [best_first_search_graph] at h
    exact graph_aux_error_iff p key fuel _ tr fin res h
  · intro fuel tr fin res h
    rw [best_first_search_tree] at h
    exact tree_aux_error_iff p key fuel _ tr fin res h
  · intro fuel
    rw [recursive_best_first_search_top]
    cases hrec : recursive_best_first_search p f fuel p.rootNode (f p.rootNode) RBFS_INF with
    | none => simp
    | some val =>
      obtain ⟨⟨r1, c1⟩, tr1⟩ := val
      cases r1 with
      | none => simp
      | some g => simp

/-- Claim C7 witness: the dead-end Graph Search run reports the error, so
its final frontier is empty and its only popped node failed the goal test. -/
theorem claim7_witness :
    (⟨[], [0]⟩ : GState).frontier = [] ∧
    ∀ n ∈ [deadEndProblem.rootNode], deadEndProblem.goal_test n.state = false :=
  ((claim7_goal_not_found deadEndProblem zeroKey zeroCost).1 2 [deadEndProblem.rootNode]
    ⟨[], [0]⟩ (.error ()) (by rfl)).mp rfl

/-- Claim C9: when the initial state itself passes the goal test, Graph
Search pops the root, immediately succeeds with cost 0 and emits exactly
the initial state, with an empty final closed set; since this holds for
every problem sharing that initial state and goal test, the actions, result
and step-cost policies are never consulted. -/
theorem claim9_initial_goal (p : Problem) (key : Node → Nat) (fuel : Nat)
    (h : p.goal_test p.initial = true) :
    best_first_search_graph p key (fuel + 1) =
      some ([p.rootNode], ⟨[], []⟩, .ok ([p.initial], 0)) := by
  rw [best_first_search_graph, best_first_search_graph_aux]
  dsimp only [popMin]
  rw [if_pos (show p.goal_test p.rootNode.state = true from h)]
  rfl

/-- Claim C9 witness: the goal-at-start problem run with fuel 1. -/
theorem claim9_witness :
    best_first_search_graph goalAtStartProblem zeroKey 1 =
      some ([goalAtStartProblem.rootNode], ⟨[], []⟩,
        .ok ([goalAtStartProblem.initial], 0)) :=
  claim9_initial_goal goalAtStartProblem zeroKey 0 rfl
